import Mathlib

/-!
Shallow embedding of the text-value core of `src/vm/src/obj/objstr.rs`.

Text content is modelled as `List Char` (the decoded characters of a Rust
`String`, which is always valid UTF-8).  Byte-level quantities (Rust's
`str::len`, `split_at`, byte-range slicing) are recovered through
`Char.utf8Size`.  Fallible runtime operations return `Except PyErr _`;
a Rust panic (an unrecoverable fault, not a catchable error) is modelled
as `Option.none` around the result.
-/

/-- The quote character `'`. -/
def squote : Char := Char.ofNat 39

/-- The quote character `"`. -/
def dquote : Char := Char.ofNat 34

/-- The backslash character. -/
def bslash : Char := Char.ofNat 92

/-- Newline. -/
def nlChar : Char := Char.ofNat 10

/-- Tab. -/
def tabChar : Char := Char.ofNat 9

/-- Carriage return. -/
def crChar : Char := Char.ofNat 13

/-- Embeds `count_char` of objstr.rs: `s.chars().filter(|x| *x == c).count()`. -/
def count_char (s : List Char) (c : Char) : Nat :=
  (s.filter (fun x => x = c)).length

/-- The quote character chosen by `str_repr`:
`if count_char(&value, yyy) > count_char(&value, zzz) { zzz } else { yyy }`
with `yyy` the single quote and `zzz` the double quote. -/
def reprQuote (s : List Char) : Char :=
  if count_char s squote > count_char s dquote then dquote else squote

/-- One iteration of the escaping loop body of `str_repr`: the characters
pushed onto `formatted` for the character `c`, given the chosen quote. -/
def escapeChar (q c : Char) : List Char :=
  if c = q ∨ c = bslash then [bslash, c]
  else if c = nlChar then [bslash, 'n']
  else if c = tabChar then [bslash, 't']
  else if c = crChar then [bslash, 'r']
  else [c]

/-- The escaping loop of `str_repr` over the whole content. -/
def escapeStr (q : Char) (s : List Char) : List Char :=
  (s.map (escapeChar q)).flatten

/-- Embeds `str_repr` of objstr.rs: opening quote, escaped content,
closing quote. -/
def str_repr (s : List Char) : List Char :=
  reprQuote s :: escapeStr (reprQuote s) s ++ [reprQuote s]

/-- The decoding procedure described by the spec for the repr round-trip:
each backslash-prefixed pair is replaced by its second character, except
that the two-character escapes for newline, tab and carriage return decode
to the corresponding control character. -/
def decodeEscapes : List Char → List Char
  | [] => []
  | [c] => [c]
  | b :: c :: rest =>
    if b = bslash then
      (if c = 'n' then nlChar
       else if c = 't' then tabChar
       else if c = 'r' then crChar
       else c) :: decodeEscapes rest
    else b :: decodeEscapes (c :: rest)

/-- The byte length of a character list under UTF-8: embeds Rust's
`str::len` (Rust strings are UTF-8 encoded byte buffers). -/
def byteLen (s : List Char) : Nat :=
  (s.map Char.utf8Size).sum

/-- Embeds `str_len` of objstr.rs: `sv.len()`, the count of encoded
storage units (bytes), not the decoded character count. -/
def str_len (s : List Char) : Nat := byteLen s

/-- The kinds of runtime values the embedded operations interact with
(`PyObjectKind` restricted to the kinds these claims exercise). -/
inductive PyValue where
  | str (s : List Char)
  | int (n : Int)
  | bool (b : Bool)
  | pynone
deriving DecidableEq

/-- Whether a value is of the text kind: embeds
`objtype::isinstance(b, &vm.ctx.str_type())`. -/
def isStr : PyValue → Bool
  | .str _ => true
  | _ => false

/-- The two catchable error kinds produced by this core. -/
inductive PyErr where
  | typeMismatch (msg : List Char)
  | indexOutOfRange
deriving DecidableEq

/-- Modelled from the spec: the `{:?}` Debug rendering of a runtime value
(implemented in pyobject.rs, which is not under src/) is abstracted as a
textual form of the operand, as required by "message must name the
operation and both operands' textual forms". -/
def debugFmt : PyValue → List Char
  | .str s => dquote :: s ++ [dquote]
  | .int n => (toString n).toList
  | .bool b => (toString b).toList
  | .pynone => ['N', 'o', 'n', 'e']

/-- Embeds `str_eq` of objstr.rs: if the second operand is of the text
kind, compare contents; otherwise the result is `false`.  The source
always returns `Ok`, never an error. -/
def str_eq (a : List Char) (b : PyValue) : Except PyErr PyValue :=
  .ok (.bool (match b with
    | .str t => decide (a = t)
    | _ => false))

/-- Embeds the `format!("Cannot add {:?} and {:?}", s, s2)` message of
`str_add`. -/
def msgCannotAdd (x y : PyValue) : List Char :=
  ("Cannot add ").toList ++ debugFmt x ++ (" and ").toList ++ debugFmt y

/-- Embeds `str_add` of objstr.rs: concatenation when the second operand
is text, otherwise a type error naming both operands. -/
def str_add (a : List Char) (b : PyValue) : Except PyErr PyValue :=
  match b with
  | .str t => .ok (.str (a ++ t))
  | _ => .error (.typeMismatch (msgCannotAdd (.str a) b))

/-- The smallest `i32` value, the lower bound of Rust's `to_i32`. -/
def i32Min : Int := -(2 ^ 31)

/-- The largest `i32` value, the upper bound of Rust's `to_i32`. -/
def i32Max : Int := 2 ^ 31 - 1

/-- The repetition loop of `str_mul`: `result` starts empty and the loop
body `result.push_str(value1.as_str())` runs once per iteration. -/
def repeatStr (s : List Char) : Nat → List Char
  | 0 => []
  | n + 1 => repeatStr s n ++ s

/-- Embeds the integer path of `str_mul` of objstr.rs:
`objint::get_value(s2).to_i32().unwrap()` panics (`none`) when the
arbitrary-precision operand does not fit in 32 bits; otherwise the loop
`for _x in 0..value2` concatenates the content `value2` times, so a
negative count yields the empty text. -/
def str_mul (s : List Char) (n : Int) : Option (List Char) :=
  if i32Min ≤ n ∧ n ≤ i32Max then some (repeatStr s n.toNat) else none

/-- Embeds `str_capitalize` of objstr.rs: `value.split_at(1)` panics
(`none`) when byte index 1 is out of bounds (the empty text) or not a
character boundary (a multi-byte first character); otherwise the
single-byte (hence ASCII) first part is upper-cased and the remainder is
kept unchanged. -/
def str_capitalize : List Char → Option (List Char)
  | [] => none
  | c :: rest => if c.utf8Size = 1 then some (c.toUpper :: rest) else none

/-- Modelled from the spec: `get_pos` lives in objsequence.rs, which is
not under src/; the spec's `resolve_index(length, raw_index)` is used in
its place.  `none` is the `IndexOutOfRange` outcome: a non-negative raw
index is valid iff it is below the length, a negative one is offset by
the length and valid iff the effective index lands in `[0, length)`. -/
def resolve_index (length : Nat) (i : Int) : Option Nat :=
  if 0 ≤ i then
    if i < (length : Int) then some i.toNat else none
  else
    if 0 ≤ (length : Int) + i ∧ (length : Int) + i < (length : Int) then
      some ((length : Int) + i).toNat
    else none

/-- Dropping a byte count from UTF-8 content: `none` when the count does
not land on a character boundary (a Rust byte-slice panic). -/
def byteDrop : List Char → Nat → Option (List Char)
  | s, 0 => some s
  | [], _ + 1 => none
  | c :: rest, n + 1 =>
    if c.utf8Size ≤ n + 1 then byteDrop rest (n + 1 - c.utf8Size) else none

/-- Taking a byte count from UTF-8 content: `none` when the count does
not land on a character boundary (a Rust byte-slice panic). -/
def byteTake : List Char → Nat → Option (List Char)
  | _, 0 => some []
  | [], _ + 1 => none
  | c :: rest, n + 1 =>
    if c.utf8Size ≤ n + 1 then (byteTake rest (n + 1 - c.utf8Size)).map (c :: ·)
    else none

/-- The byte-range slice `value[a..b]` of Rust: `none` on a
non-boundary index (panic). -/
def byteSlice (s : List Char) (a b : Nat) : Option (List Char) :=
  (byteDrop s a).bind (fun t => byteTake t (b - a))

/-- Embeds the integer path of `subscript` of objstr.rs: first the
arbitrary-precision operand is forced through
`objint::get_value(&b).to_i32().unwrap()`, which panics (`none`) when
the raw index does not fit in 32 bits; then the index is resolved
against the byte length (an out-of-range index is the catchable
`IndexOutOfRange` error, following the spec's `resolve_index`), and the
one-byte slice `value[idx..idx + 1]` is taken; slicing off a character
boundary is a panic (`none`). -/
def subscript_int (s : List Char) (i : Int) : Option (Except PyErr (List Char)) :=
  if i32Min ≤ i ∧ i ≤ i32Max then
    match resolve_index (byteLen s) i with
    | none => some (.error .indexOutOfRange)
    | some idx =>
      match byteSlice s idx (idx + 1) with
      | none => none
      | some t => some (.ok t)
  else none

/-- Embeds `VALID_UNICODES` of objstr.rs: the ten superscript/exponent
digit codepoints. -/
def VALID_UNICODES : List Nat :=
  [0x2070, 0x00B9, 0x00B2, 0x00B3, 0x2074, 0x2075, 0x2076, 0x2077, 0x2078, 0x2079]

/-- Embeds Rust's `c.is_digit(10)`: true exactly on the ASCII decimal
digits. -/
def isDigit10 (c : Char) : Bool :=
  decide ('0' ≤ c) && decide (c ≤ '9')

/-- Embeds the truncating cast `let char_as_uni: u16 = c as u16;` of
`str_isdigit`: the codepoint reduced modulo 2^16. -/
def char_as_u16 (c : Char) : Nat :=
  c.toNat % 65536

/-- Embeds `str_isdigit` of objstr.rs: the loop accepts a character when
it is an ASCII digit or when its 16-bit-truncated codepoint is in
`VALID_UNICODES`, and breaks with a false result otherwise. -/
def str_isdigit (s : List Char) : Bool :=
  s.all (fun c => isDigit10 c || VALID_UNICODES.contains (char_as_u16 c))

/-- The ASCII fragment of Rust's `char::to_uppercase`, used per
character inside `str_title`.  On a single-byte (ASCII) character this
agrees with the program exactly; characters outside ASCII are NOT
modelled (the program applies the full Unicode mapping there, e.g.
U+00E9 to U+00C9), so every theorem that depends on this definition
restricts its content to single-byte characters. -/
def charUpperList (c : Char) : List Char := [c.toUpper]

/-- The ASCII fragment of Rust's `char::to_lowercase`, used per
character inside `str_title`.  On a single-byte (ASCII) character this
agrees with the program exactly; characters outside ASCII are NOT
modelled (the program applies the full Unicode mapping there), so every
theorem that depends on this definition restricts its content to
single-byte characters. -/
def charLowerList (c : Char) : List Char := [c.toLower]

/-- The per-word closure of `str_title`: an empty word stays empty; a
non-empty word has its first character upper-cased and the remaining
characters flat-mapped through lower-casing. -/
def titleWord : List Char → List Char
  | [] => []
  | f :: rest => charUpperList f ++ (rest.map charLowerList).flatten

/-- Embeds `str_title` of objstr.rs: `value.split(' ')` (splitting on
every single space character, keeping empty pieces), each piece mapped
through the per-word closure, re-joined with single spaces.  Faithful to
the program on single-byte (ASCII) content, the only content the title
theorem quantifies over, since the per-character case maps embed only
the ASCII fragment. -/
def str_title (s : List Char) : List Char :=
  List.intercalate [' '] ((s.splitOn ' ').map titleWord)

/-- Whether `pat` occurs at the start of `s` (a pattern match attempt at
one position of Rust's substring search). -/
def begWith (pat s : List Char) : Bool :=
  decide (s.take pat.length = pat)

/-- The position of the first occurrence of `pat` in `s`, scanning every
position left to right (Rust's leftmost substring match). -/
def findSub (pat s : List Char) : Option Nat :=
  (List.range (s.length + 1)).find? (fun i => begWith pat (s.drop i))

/-- The splitting loop for a non-empty pattern: cut at the leftmost
match, continue after the matched pattern.  The fuel bounds the number of
cuts; `str_split` supplies enough fuel that it is never exhausted for a
non-empty pattern. -/
def splitAux (pat : List Char) : List Char → Nat → List (List Char)
  | s, 0 => [s]
  | s, fuel + 1 =>
    match findSub pat s with
    | none => [s]
    | some i => s.take i :: splitAux pat ((s.drop i).drop pat.length) fuel

/-- Embeds the element production of `str_split` of objstr.rs, which is
Rust's `value.split(str_pat)`: non-overlapping leftmost matches of the
pattern cut the content into pieces (empty pieces kept).  An empty
pattern matches at every character boundary including both ends, so the
pieces are an empty piece, each character alone, and an empty piece. -/
def str_split (s pat : List Char) : List (List Char) :=
  if pat.isEmpty then [] :: (s.map (fun c => [c]) ++ [[]])
  else splitAux pat s (s.length + 1)

/-- Whether `pat` occurs somewhere in `s` as a contiguous run. -/
def containsSub (pat : List Char) : List Char → Bool
  | [] => begWith pat []
  | c :: rest => begWith pat (c :: rest) || containsSub pat rest

theorem decode_escapeChar (q c : Char) (hq : q = squote ∨ q = dquote)
    (tail : List Char) :
    decodeEscapes (escapeChar q c ++ tail) = c :: decodeEscapes tail := by
  by_cases h1 : c = q ∨ c = bslash
  · have hne : ¬ c = 'n' ∧ ¬ c = 't' ∧ ¬ c = 'r' := by
      rcases h1 with h | h
      · rcases hq with hq | hq <;> subst hq <;> subst h <;>
          exact ⟨by decide, by decide, by decide⟩
      · subst h; exact ⟨by decide, by decide, by decide⟩
    simp [escapeChar, h1, decodeEscapes, hne.1, hne.2.1, hne.2.2]
  · push_neg at h1
    by_cases h2 : c = nlChar
    · subst h2; simp [escapeChar, h1.1, h1.2, decodeEscapes]
    · by_cases h3 : c = tabChar
      · subst h3; simp [escapeChar, h1.1, h1.2, h2, decodeEscapes]
      · by_cases h4 : c = crChar
        · subst h4; simp [escapeChar, h1.1, h1.2, h2, h3, decodeEscapes]
        · have he : escapeChar q c = [c] := by
            simp [escapeChar, h1.1, h1.2, h2, h3, h4]
          rw [he]
          cases tail with
          | nil => simp [decodeEscapes]
          | cons d rest => simp [decodeEscapes, h1.2]

theorem decode_escapeStr (q : Char) (hq : q = squote ∨ q = dquote)
    (s : List Char) : decodeEscapes (escapeStr q s) = s := by
  induction s with
  | nil => simp [escapeStr, decodeEscapes]
  | cons c s ih =>
    have h : escapeStr q (c :: s) = escapeChar q c ++ escapeStr q s := by
      simp [escapeStr]
    rw [h, decode_escapeChar q c hq, ih]

/-- C1: decoding the escapes in `str_repr s` — removing the two quote
delimiters, replacing each backslash-prefixed pair by its second
character and the two-character escapes for newline, tab and carriage
return by the corresponding control characters — reconstructs `s`
exactly, for every content `s` (both quote styles, backslashes and the
three control characters included). -/
theorem c1_repr_roundtrip (s : List Char) :
    decodeEscapes (((str_repr s).drop 1).dropLast) = s := by
  have hq : reprQuote s = squote ∨ reprQuote s = dquote := by
    unfold reprQuote
    split_ifs with h
    · exact Or.inr rfl
    · exact Or.inl rfl
  have h1 : (str_repr s).drop 1 = escapeStr (reprQuote s) s ++ [reprQuote s] := by
    simp [str_repr]
  rw [h1, List.dropLast_concat, decode_escapeStr _ hq]

/-- C2: `str_eq` answers `true` exactly on byte-for-byte identical text
contents, and on any operand that is not of the text kind it answers
`false` inside a successful (`Ok`) result — it never errors. -/
theorem c2_str_eq_spec :
    (∀ a b : List Char, (str_eq a (.str b) = .ok (.bool true) ↔ a = b)) ∧
    (∀ (a : List Char) (x : PyValue), isStr x = false →
      str_eq a x = .ok (.bool false)) := by
  constructor
  · intro a b
    constructor
    · intro h
      by_contra hne
      simp [str_eq, hne] at h
    · intro h
      subst h
      simp [str_eq]
  · intro a x hx
    cases x <;> simp_all [str_eq, isStr]

theorem c2_str_eq_spec_witness :
    str_eq ['a'] (.str ['a']) = .ok (.bool true) ∧
    str_eq ['a'] (.int 5) = .ok (.bool false) :=
  ⟨(c2_str_eq_spec.1 ['a'] ['a']).mpr rfl, c2_str_eq_spec.2 ['a'] (.int 5) rfl⟩

/-- C3: `str_capitalize` is not total — `value.split_at(1)` panics on
the empty text (byte index 1 out of bounds) and on a text whose first
character is multi-byte (byte index 1 off a character boundary), neither
of which is one of the two catchable error kinds; on a single-byte first
character it upper-cases that character and leaves the remainder
unchanged (not lower-cased). -/
theorem c3_capitalize_panics :
    str_capitalize [] = none ∧
    str_capitalize [Char.ofNat 0xE9] = none ∧
    str_capitalize ['h', 'e', 'L'] = some ['H', 'e', 'L'] :=
  ⟨rfl, rfl, rfl⟩

/-- C5: the loop of `str_isdigit` casts each character to 16 bits
(`c as u16`) before consulting `VALID_UNICODES`, so the codepoint
U+12070 — far outside both the ASCII digits and the ten superscript
digits — is truncated to 0x2070 and accepted: the result is `true`
where the claim requires `false`.  The listed examples behave as the
claim states. -/
theorem c5_isdigit_truncation :
    str_isdigit [Char.ofNat 0x12070] = true ∧
    str_isdigit [] = true ∧
    str_isdigit ['5', Char.ofNat 0xB9] = true ∧
    str_isdigit ['5', 'a'] = false :=
  ⟨rfl, rfl, rfl, rfl⟩

/-- C9: for every negative multiplier representable in 32 bits, the loop
`for _x in 0..value2` of `str_mul` runs zero times, so the result is the
empty text inside a successful result, not an error. -/
theorem c9_mul_negative (s : List Char) (n : Int) (h0 : i32Min ≤ n)
    (h1 : n < 0) : str_mul s n = some [] := by
  unfold str_mul
  have h2 : n ≤ i32Max := by
    have : (0 : Int) ≤ i32Max := by norm_num [i32Max]
    omega
  rw [if_pos ⟨h0, h2⟩]
  have h3 : n.toNat = 0 := by omega
  rw [h3]
  rfl

theorem c9_mul_negative_witness : str_mul ['a', 'b'] (-3) = some [] :=
  c9_mul_negative ['a', 'b'] (-3) (by norm_num [i32Min]) (by norm_num)

theorem byteLen_append (a b : List Char) :
    byteLen (a ++ b) = byteLen a + byteLen b := by
  simp [byteLen]

theorem byteLen_repeatStr (s : List Char) (k : Nat) :
    byteLen (repeatStr s k) = byteLen s * k := by
  induction k with
  | zero => simp [repeatStr, byteLen]
  | succ k ih =>
    rw [repeatStr, byteLen_append, ih]
    ring

/-- C7 counterexample: the multiplier is forced through `to_i32().unwrap()`,
so at `n = 2^31` — an integer with `n ≥ 0` — `str_mul` panics (`none`)
instead of producing a text of length `length(s) * n` as the claim
demands for every `n ≥ 0`. -/
theorem c7_mul_counterexample : str_mul ['a'] (2 ^ 31) = none := by
  unfold str_mul
  rw [if_neg]
  norm_num [i32Max]

/-- C7 (amended): for every multiplier `n` with `0 ≤ n ≤ 2^31 - 1` (the
range accepted by the `to_i32` conversion), `str_mul` succeeds with the
content repeated `n` times, whose length is `length(s) * n`; repeating
zero times yields the empty text. -/
theorem c7_mul_length (s : List Char) (n : Int) (h0 : 0 ≤ n)
    (h1 : n ≤ i32Max) :
    str_mul s n = some (repeatStr s n.toNat) ∧
    str_len (repeatStr s n.toNat) = str_len s * n.toNat ∧
    str_mul s 0 = some [] := by
  refine ⟨?_, ?_, ?_⟩
  · unfold str_mul
    rw [if_pos]
    constructor
    · have : i32Min ≤ 0 := by norm_num [i32Min]
      omega
    · exact h1
  · unfold str_len
    exact byteLen_repeatStr s n.toNat
  · unfold str_mul
    rw [if_pos]
    · rfl
    · constructor
      · norm_num [i32Min]
      · norm_num [i32Max]

theorem c7_mul_length_witness :
    str_mul ['a', 'b'] 3 = some ['a', 'b', 'a', 'b', 'a', 'b'] ∧
    str_len ['a', 'b', 'a', 'b', 'a', 'b'] = str_len ['a', 'b'] * 3 := by
  have h := c7_mul_length ['a', 'b'] 3 (by norm_num) (by norm_num [i32Max])
  constructor
  · rw [h.1]
    rfl
  · have h2 := h.2.1
    simpa using h2

theorem byteLen_ascii (s : List Char) (h : ∀ c ∈ s, c.utf8Size = 1) :
    byteLen s = s.length := by
  induction s with
  | nil => rfl
  | cons c rest ih =>
    have hc : c.utf8Size = 1 := h c (List.mem_cons_self c rest)
    have hr : ∀ x ∈ rest, x.utf8Size = 1 := fun x hx => h x (List.mem_cons_of_mem c hx)
    have hlen := ih hr
    simp [byteLen] at hlen ⊢
    omega

theorem byteDrop_ascii (s : List Char) (h : ∀ c ∈ s, c.utf8Size = 1) :
    ∀ n, n ≤ s.length → byteDrop s n = some (s.drop n) := by
  induction s with
  | nil =>
    intro n hn
    cases n with
    | zero => rfl
    | succ m => simp at hn
  | cons c rest ih =>
    intro n hn
    cases n with
    | zero => rfl
    | succ m =>
      have hc : c.utf8Size = 1 := h c (List.mem_cons_self c rest)
      have hr : ∀ x ∈ rest, x.utf8Size = 1 :=
        fun x hx => h x (List.mem_cons_of_mem c hx)
      rw [byteDrop, if_pos (by omega)]
      rw [hc]
      simpa using ih hr m (by simpa using hn)

theorem byteTake_ascii (s : List Char) (h : ∀ c ∈ s, c.utf8Size = 1) :
    ∀ n, n ≤ s.length → byteTake s n = some (s.take n) := by
  induction s with
  | nil =>
    intro n hn
    cases n with
    | zero => rfl
    | succ m => simp at hn
  | cons c rest ih =>
    intro n hn
    cases n with
    | zero => rfl
    | succ m =>
      have hc : c.utf8Size = 1 := h c (List.mem_cons_self c rest)
      have hr : ∀ x ∈ rest, x.utf8Size = 1 :=
        fun x hx => h x (List.mem_cons_of_mem c hx)
      rw [byteTake, if_pos (by omega)]
      rw [hc]
      have := ih hr m (by simpa using hn)
      simp [this]

theorem byteSlice_one_ascii (s : List Char) (h : ∀ c ∈ s, c.utf8Size = 1)
    (idx : Nat) (hidx : idx < s.length) :
    byteSlice s idx (idx + 1) = some ((s.drop idx).take 1) := by
  unfold byteSlice
  rw [byteDrop_ascii s h idx (le_of_lt hidx)]
  have hd : ∀ c ∈ s.drop idx, c.utf8Size = 1 :=
    fun c hc => h c (List.mem_of_mem_drop hc)
  have hl : 1 ≤ (s.drop idx).length := by
    rw [List.length_drop]
    omega
  have ht := byteTake_ascii (s.drop idx) hd 1 hl
  simp [ht]

/-- C4 counterexample: for the one-character text containing U+00E9
(whose UTF-8 encoding is two bytes) and the raw index 0 — a valid
position under either unit of measure — `subscript` byte-slices
`value[0..1]` off a character boundary and panics (`none`), instead of
returning a one-character text or an `IndexOutOfRange` error as the
claim requires for every text. -/
theorem c4_getitem_counterexample :
    subscript_int [Char.ofNat 0xE9] 0 = none := rfl

/-- C4 (amended): for every text of single-byte (ASCII) characters whose
length `L` is at most `2^31`, `subscript` on an integer raw index
returns the one-character text at absolute position `i` when
`0 ≤ i < L`, the one-character text at absolute position `L + i` when
`-L ≤ i < 0`, and fails with the catchable `IndexOutOfRange` error for
every other raw index representable in 32 bits; a raw index outside the
32-bit range panics in `to_i32().unwrap()` (not a catchable error). -/
theorem c4_getitem_ascii (s : List Char) (h : ∀ c ∈ s, c.utf8Size = 1)
    (hL : (s.length : Int) ≤ 2 ^ 31) (i : Int) :
    (0 ≤ i → i < (s.length : Int) →
      subscript_int s i = some (.ok ((s.drop i.toNat).take 1))) ∧
    (-(s.length : Int) ≤ i → i < 0 →
      subscript_int s i =
        some (.ok ((s.drop ((s.length : Int) + i).toNat).take 1))) ∧
    ((i < -(s.length : Int) ∨ (s.length : Int) ≤ i) →
      i32Min ≤ i → i ≤ i32Max →
      subscript_int s i = some (.error .indexOutOfRange)) ∧
    (i < i32Min ∨ i32Max < i → subscript_int s i = none) := by
  have hbl : byteLen s = s.length := byteLen_ascii s h
  have hmin : i32Min = -2147483648 := by norm_num [i32Min]
  have hmax : i32Max = 2147483647 := by norm_num [i32Max]
  have hL31 : (s.length : Int) ≤ 2147483648 := by
    have h31 : ((2 : Int) ^ 31) = 2147483648 := by norm_num
    omega
  refine ⟨?_, ?_, ?_, ?_⟩
  · intro h0 hiL
    unfold subscript_int
    rw [if_pos (by omega), hbl]
    unfold resolve_index
    rw [if_pos h0, if_pos hiL]
    have hslice := byteSlice_one_ascii s h i.toNat (by omega)
    simp [hslice]
  · intro hmL hneg
    unfold subscript_int
    rw [if_pos (by omega), hbl]
    unfold resolve_index
    rw [if_neg (by omega), if_pos (by constructor <;> omega)]
    have hslice := byteSlice_one_ascii s h ((s.length : Int) + i).toNat (by omega)
    simp [hslice]
  · intro hout hlo hhi
    unfold subscript_int
    rw [if_pos (by omega), hbl]
    unfold resolve_index
    rcases hout with hlt | hge
    · rw [if_neg (by omega), if_neg (by omega)]
    · rw [if_pos (by omega), if_neg (by omega)]
  · intro hout
    unfold subscript_int
    rw [if_neg (by omega)]

theorem c4_getitem_ascii_witness :
    subscript_int ['h', 'e', 'l', 'l', 'o'] (-1) = some (.ok ['o']) ∧
    subscript_int ['h', 'e', 'l', 'l', 'o'] 5 =
      some (.error .indexOutOfRange) ∧
    subscript_int ['h', 'e', 'l', 'l', 'o'] (2 ^ 31) = none := by
  have h1 := (c4_getitem_ascii ['h', 'e', 'l', 'l', 'o'] (by decide)
    (by norm_num) (-1)).2.1 (by norm_num) (by norm_num)
  have h2 := (c4_getitem_ascii ['h', 'e', 'l', 'l', 'o'] (by decide)
    (by norm_num) 5).2.2.1 (by norm_num) (by norm_num [i32Min])
    (by norm_num [i32Max])
  have h3 := (c4_getitem_ascii ['h', 'e', 'l', 'l', 'o'] (by decide)
    (by norm_num) (2 ^ 31)).2.2.2 (by norm_num [i32Max])
  refine ⟨?_, h2, h3⟩
  rw [h1]
  rfl

/-- C6 counterexample: on `"a  b"` — two spaces between the words — the
run of spaces survives into the result (`"A  B"`), because splitting on
every single space yields an empty middle word and re-joining restores
both spaces; the claim that internal whitespace runs are replaced by a
single space (which would give `"A B"`) is false. -/
theorem c6_title_counterexample :
    str_title ['a', ' ', ' ', 'b'] = ['A', ' ', ' ', 'B'] ∧
    str_title ['a', ' ', ' ', 'b'] ≠ ['A', ' ', 'B'] :=
  ⟨rfl, by decide⟩

/-- C6 (amended): over single-byte (ASCII) content — the fragment on
which the embedded per-character case maps agree with the program
exactly — `str_title` upper-cases the first character of each
space-separated word and lower-cases the rest of that word, where the
pieces are delimited by every single space character and re-joined with
single spaces — so each space of the input, including every space of an
internal run, reappears unchanged in the result (runs are preserved, not
collapsed); in particular `title("hello world") = "Hello World"`. -/
theorem c6_title_words (ws : List (List Char)) (hne : ws ≠ [])
    (hw : ∀ w ∈ ws, ' ' ∉ w)
    (_hascii : ∀ w ∈ ws, ∀ c ∈ w, c.utf8Size = 1) :
    str_title (List.intercalate [' '] ws) =
      List.intercalate [' '] (ws.map titleWord) ∧
    str_title "hello world".toList = "Hello World".toList := by
  constructor
  · unfold str_title
    rw [List.splitOn_intercalate ws ' ' hw hne]
  · rfl

theorem c6_title_words_witness :
    str_title (List.intercalate [' '] [['h', 'i'], ['y', 'o']]) =
      List.intercalate [' '] ([['h', 'i'], ['y', 'o']].map titleWord) :=
  (c6_title_words [['h', 'i'], ['y', 'o']] (by decide) (by decide)
    (by decide)).1

theorem begWith_self_append (pat v : List Char) :
    begWith pat (pat ++ v) = true := by
  unfold begWith
  rw [List.take_left]
  simp

theorem containsSub_of_begWith (pat l : List Char) (h : begWith pat l = true) :
    containsSub pat l = true := by
  cases l with
  | nil => exact h
  | cons c rest => simp [containsSub, h]

theorem containsSub_append (pat u v : List Char) :
    containsSub pat (u ++ (pat ++ v)) = true := by
  induction u with
  | nil => exact containsSub_of_begWith pat (pat ++ v) (begWith_self_append pat v)
  | cons c u ih => simp [containsSub, ih]

/-- C8: `str_add` concatenates the contents when both operands are text
(`add("foo","bar") = "foobar"`), and on a non-text second operand fails
with the catchable `TypeMismatch` error whose message contains the
textual forms of both operands. -/
theorem c8_str_add_spec :
    (∀ a t : List Char, str_add a (.str t) = .ok (.str (a ++ t))) ∧
    str_add "foo".toList (.str "bar".toList) = .ok (.str "foobar".toList) ∧
    (∀ (a : List Char) (x : PyValue), isStr x = false →
      ∃ msg, str_add a x = .error (.typeMismatch msg) ∧
        containsSub (debugFmt (.str a)) msg = true ∧
        containsSub (debugFmt x) msg = true) := by
  refine ⟨fun a t => rfl, rfl, ?_⟩
  intro a x hx
  refine ⟨msgCannotAdd (.str a) x, ?_, ?_, ?_⟩
  · cases x <;> simp_all [str_add, isStr]
  · have h := containsSub_append (debugFmt (.str a)) ("Cannot add ").toList
      ((" and ").toList ++ debugFmt x)
    unfold msgCannotAdd
    simpa [List.append_assoc] using h
  · have h := containsSub_append (debugFmt x)
      (("Cannot add ").toList ++ debugFmt (.str a) ++ (" and ").toList) []
    unfold msgCannotAdd
    simpa [List.append_assoc] using h

theorem c8_str_add_spec_witness :
    ∃ msg, str_add "foo".toList (.int 5) = .error (.typeMismatch msg) ∧
      containsSub (debugFmt (.str "foo".toList)) msg = true ∧
      containsSub (debugFmt (.int 5)) msg = true :=
  c8_str_add_spec.2.2 "foo".toList (.int 5) rfl

theorem intercalate_single (sep x : List Char) :
    List.intercalate sep [x] = x := by
  simp [List.intercalate, List.intersperse]

theorem intercalate_cons2 (sep x y : List Char) (tl : List (List Char)) :
    List.intercalate sep (x :: y :: tl) =
      x ++ sep ++ List.intercalate sep (y :: tl) := by
  simp [List.intercalate, List.intersperse_cons_cons]

theorem intercalate_nil_sep (ls : List (List Char)) :
    List.intercalate [] ls = ls.flatten := by
  induction ls with
  | nil => rfl
  | cons x tl ih =>
    cases tl with
    | nil => simp [intercalate_single]
    | cons y tl2 =>
      rw [intercalate_cons2, ih]
      simp

theorem findSub_begWith (pat s : List Char) (i : Nat)
    (h : findSub pat s = some i) : (s.drop i).take pat.length = pat := by
  unfold findSub at h
  have h2 := List.find?_some h
  simpa [begWith] using h2

theorem splitAux_ne_nil (pat s : List Char) (fuel : Nat) :
    splitAux pat s fuel ≠ [] := by
  cases fuel with
  | zero => simp [splitAux]
  | succ f =>
    unfold splitAux
    cases h : findSub pat s <;> simp

theorem splitAux_intercalate (pat : List Char) :
    ∀ fuel s, List.intercalate pat (splitAux pat s fuel) = s := by
  intro fuel
  induction fuel with
  | zero =>
    intro s
    simp [splitAux, intercalate_single]
  | succ f ih =>
    intro s
    unfold splitAux
    cases h : findSub pat s with
    | none => simp [intercalate_single]
    | some i =>
      have hkey : s.drop i = pat ++ (s.drop i).drop pat.length := by
        conv_lhs => rw [← List.take_append_drop pat.length (s.drop i)]
        rw [findSub_begWith pat s i h]
      have hne := splitAux_ne_nil pat ((s.drop i).drop pat.length) f
      obtain ⟨w, ws, hsp⟩ :
          ∃ w ws, splitAux pat ((s.drop i).drop pat.length) f = w :: ws := by
        rcases hq : splitAux pat ((s.drop i).drop pat.length) f with _ | ⟨w, ws⟩
        · exact absurd hq hne
        · exact ⟨w, ws, rfl⟩
      show List.intercalate pat
          (List.take i s :: splitAux pat (List.drop pat.length (List.drop i s)) f) = s
      rw [hsp, intercalate_cons2, ← hsp, ih]
      conv_rhs => rw [← List.take_append_drop i s, hkey]
      simp [List.append_assoc]

/-- C10: `str_split` always returns a non-empty list of pieces, and
re-joining the pieces with the separator between consecutive elements
reconstructs the receiver exactly — for every content and every
separator, the empty separator included. -/
theorem c10_split_roundtrip (s pat : List Char) :
    str_split s pat ≠ [] ∧ List.intercalate pat (str_split s pat) = s := by
  unfold str_split
  by_cases hp : pat.isEmpty
  · rw [if_pos hp]
    have hpat : pat = [] := by simpa using hp
    subst hpat
    refine ⟨by simp, ?_⟩
    rw [intercalate_nil_sep]
    have hm : (List.map (fun c => [c]) s).flatten = s := by
      induction s with
      | nil => rfl
      | cons c rest ih => simp [ih]
    simp [hm]
  · rw [if_neg hp]
    exact ⟨splitAux_ne_nil _ _ _, splitAux_intercalate pat _ s⟩
